import Mathlib

/-!
Verification of the head-syncer core of `roomy-spaces` (`src/head-syncer.ts`).

The TypeScript code keeps JavaScript `Set`s and `Map`s, which preserve
insertion order and never hold duplicate elements / keys.  We embed them as
plain Lean lists (of elements, resp. of key-value pairs) together with the
exact operations the source performs: `Set.add` appends when absent,
`Set.delete` removes, `Map.set` overwrites in place or appends, and iteration
is list order.  Hashes and peer identifiers are opaque strings compared for
equality only.
-/

namespace RoomySpaces

/-- A change summary (`PartialChange` in `head-syncer.ts`): a content hash and
the hashes of its causal dependencies. -/
structure PartialChange where
  hash : String
  deps : List String
deriving Repr, DecidableEq

/-- JS `Set.prototype.add`: append the element when it is not yet present. -/
def setAdd {α : Type} [DecidableEq α] (s : List α) (x : α) : List α :=
  if x ∈ s then s else s ++ [x]

/-- JS `Set.prototype.delete`: remove the element. -/
def setDelete {α : Type} [DecidableEq α] (s : List α) (x : α) : List α :=
  s.filter (fun y => y ≠ x)

/-- `new Set(iterable)`: insert the elements in order, skipping duplicates
(first occurrence wins). -/
def jsSetOf {α : Type} [DecidableEq α] (l : List α) : List α :=
  l.foldl setAdd []

/-- JS `Map.prototype.has` on a string-keyed map embedded as a list of pairs. -/
def mapHas {β : Type} (m : List (String × β)) (k : String) : Bool :=
  m.any (fun kv => kv.1 == k)

/-- JS `Map.prototype.set`: overwrite the value in place when the key exists,
append the pair otherwise. -/
def mapSet {β : Type} (m : List (String × β)) (k : String) (v : β) : List (String × β) :=
  if mapHas m k then m.map (fun kv => if kv.1 == k then (kv.1, v) else kv) else m ++ [(k, v)]

/-- JS `Map.prototype.delete`. -/
def mapDelete {β : Type} (m : List (String × β)) (k : String) : List (String × β) :=
  m.filter (fun kv => kv.1 ≠ k)

/-- `getOrDefault(map, key, new Set()).add(x)` as performed by the source on a
map of sets: create the entry when absent, then add `x` to the stored set. -/
def mapAddToSet (m : List (String × List String)) (k : String) (x : String) :
    List (String × List String) :=
  if mapHas m k then m.map (fun kv => if kv.1 == k then (kv.1, setAdd kv.2 x) else kv)
  else m ++ [(k, [x])]

/-- The result of `ChangeGraph.addChange` (`AddChangeResult` in the source). -/
inductive AddChangeResult where
  | new_head (removedHeads : List String) (missingDeps : List String)
  | already_exists
  | was_missing
deriving Repr, DecidableEq

/-- The dependency graph (`class ChangeGraph`): `nodes` maps each known change
hash to its dependency hashes, `missing` holds hashes seen only as
dependencies, and `heads` caches the hashes nothing depends on yet. -/
structure ChangeGraph where
  nodes : List (String × List String)
  missing : List String
  heads : List String
deriving Repr, DecidableEq

/-- The empty graph built by `new ChangeGraph()` without a pojo. -/
def emptyCG : ChangeGraph := ⟨[], [], []⟩

/-- The body of the `new Set(change.deps).forEach((dep) => ...)` loop in
`addChange`: delete the dependency from `heads` (recording it in
`removedHeads`) when it is a head, and register it in `missing` (recording it
in `missingDeps`) when it is not a known node.  The accumulator carries the
graph together with the `removedHeads` and `missingDeps` lists. -/
def depStep (acc : ChangeGraph × List String × List String) (dep : String) :
    ChangeGraph × List String × List String :=
  let acc :=
    if dep ∈ acc.1.heads then
      ({ acc.1 with heads := setDelete acc.1.heads dep }, acc.2.1 ++ [dep], acc.2.2)
    else acc
  if mapHas acc.1.nodes dep then acc
  else ({ acc.1 with missing := setAdd acc.1.missing dep }, acc.2.1, acc.2.2 ++ [dep])

/-- `ChangeGraph.addChange`, returning the mutated graph and the outcome. -/
def addChange (g : ChangeGraph) (change : PartialChange) : ChangeGraph × AddChangeResult :=
  if mapHas g.nodes change.hash then (g, .already_exists)
  else
    let g := { g with nodes := mapSet g.nodes change.hash change.deps }
    if change.hash ∈ g.missing then
      ({ g with missing := setDelete g.missing change.hash }, .was_missing)
    else
      let g := { g with heads := setAdd g.heads change.hash }
      let folded := (jsSetOf change.deps).foldl depStep (g, [], [])
      (folded.1, .new_head folded.2.1 folded.2.2)

/-- The graph reached from the empty graph by a sequence of `addChange` calls. -/
def graphOfList (cs : List PartialChange) : ChangeGraph :=
  cs.foldl (fun g c => (addChange g c).1) emptyCG

/-- The sync coordinator (`class HeadSyncer`): the change graph plus the map
from each current head hash to the peers known to have it.  The storage handle
is modelled separately (see `ingestChangesRun`). -/
structure HeadSyncer where
  changes : ChangeGraph
  headPeers : List (String × List String)
deriving Repr, DecidableEq

/-- The coordinator state built by `HeadSyncer.init` when no snapshot exists. -/
def emptyHS : HeadSyncer := ⟨emptyCG, []⟩

/-- The body of the `for (const change of changes)` loop of
`HeadSyncer.ingestChanges`: feed the change to the graph and update
`headPeers` according to the outcome. -/
def ingestStep (s : HeadSyncer) (peer : String) (change : PartialChange) : HeadSyncer :=
  let r := addChange s.changes change
  match r.2 with
  | .new_head removedHeads _ =>
      let hp := mapAddToSet s.headPeers change.hash peer
      { changes := r.1, headPeers := removedHeads.foldl mapDelete hp }
  | .already_exists =>
      if change.hash ∈ r.1.heads then
        { changes := r.1, headPeers := mapAddToSet s.headPeers change.hash peer }
      else { changes := r.1, headPeers := s.headPeers }
  | .was_missing => { changes := r.1, headPeers := s.headPeers }

/-- The in-memory effect of `HeadSyncer.ingestChanges`: the batch applied in
order (the trailing storage save is modelled by `ingestChangesRun`). -/
def ingestChanges (s : HeadSyncer) (peer : String) (changes : List PartialChange) : HeadSyncer :=
  changes.foldl (fun s c => ingestStep s peer c) s

/-- Coordinator states reachable from the empty state by `ingestChanges` calls. -/
inductive ReachableHS : HeadSyncer → Prop where
  | empty : ReachableHS emptyHS
  | ingest (s : HeadSyncer) (peer : String) (cs : List PartialChange) :
      ReachableHS s → ReachableHS (ingestChanges s peer cs)

/-- The serialization form of the graph (`ChangeGraphPojo`).  `JSON.stringify`
followed by `JSON.parse` is the identity on this data, so the pojo itself
stands for the persisted snapshot. -/
structure ChangeGraphPojo where
  nodes : List (String × List String)
  missing : List String
  heads : List String
deriving Repr, DecidableEq

/-- The serialization form of the coordinator (`HeadSyncerPojo`). -/
structure HeadSyncerPojo where
  changes : ChangeGraphPojo
  headPeers : List (String × List String)
deriving Repr, DecidableEq

/-- `ChangeGraph.pojo`: `Object.fromEntries`, `Array.from` on insertion-ordered
maps and sets are the identity on the list embedding. -/
def ChangeGraph.pojo (g : ChangeGraph) : ChangeGraphPojo :=
  { nodes := g.nodes, heads := g.heads, missing := g.missing }

/-- `HeadSyncer.pojo`. -/
def HeadSyncer.pojo (s : HeadSyncer) : HeadSyncerPojo :=
  { changes := s.changes.pojo, headPeers := s.headPeers.map (fun kv => (kv.1, kv.2)) }

/-- The `new ChangeGraph(pojo)` constructor: `new Map(Object.entries(pojo.nodes))`,
`new Set(pojo.heads)`, `new Set(pojo.missing)`. -/
def initChangeGraph (p : ChangeGraphPojo) : ChangeGraph :=
  { nodes := p.nodes.foldl (fun m kv => mapSet m kv.1 kv.2) [],
    heads := jsSetOf p.heads,
    missing := jsSetOf p.missing }

/-- The `headPeers` map rebuilt by `HeadSyncer.init` from a snapshot.  The
source maps each entry `[k, v]` to `[k, v.map((x) => new Set(x))]`: because `x`
ranges over the peer-id strings of `v`, `new Set(x)` iterates the characters
of `x`, so every stored value becomes an array of character sets instead of a
set of peer-id strings. -/
def initHeadPeers (hp : List (String × List String)) : List (String × List (List Char)) :=
  hp.foldl (fun m kv => mapSet m kv.1 (kv.2.map (fun x => jsSetOf x.data))) []

/-- A JavaScript runtime value as far as the `headPeers` round trip observes
one: a peer-id string, or a set of characters. -/
inductive JsVal where
  | str (s : String)
  | charSet (cs : List Char)
deriving Repr, DecidableEq

/-- The elements found inside each `headPeers` entry of a live coordinator:
peer-id strings. -/
def observeHeadPeers (s : HeadSyncer) : List (String × List JsVal) :=
  s.headPeers.map (fun kv => (kv.1, kv.2.map JsVal.str))

/-- The elements found inside each `headPeers` entry after `HeadSyncer.init`
reloads a snapshot: character sets (see `initHeadPeers`). -/
def observeLoadedHeadPeers (p : HeadSyncerPojo) : List (String × List JsVal) :=
  (initHeadPeers p.headPeers).map (fun kv => (kv.1, kv.2.map JsVal.charSet))

/-- One observable storage interaction of an `ingestChanges` call. -/
inductive StorageEvent where
  | applied (hash : String)
  | saved (payload : HeadSyncerPojo)
deriving Repr, DecidableEq

/-- Whether a storage event is a save. -/
def StorageEvent.isSave : StorageEvent → Bool
  | .saved _ => true
  | .applied _ => false

/-- `HeadSyncer.ingestChanges` with its storage boundary made explicit: the
batch is applied to the in-memory state in order, and afterwards the
serialized state is written once via `storage.save`; the save outcome is
returned unchanged next to the final in-memory state and the event trace. -/
def ingestChangesRun {E : Type} (saveFn : HeadSyncerPojo → Except E Unit)
    (s : HeadSyncer) (peer : String) (cs : List PartialChange) :
    Except E Unit × HeadSyncer × List StorageEvent :=
  let run := cs.foldl (fun (acc : HeadSyncer × List StorageEvent) c =>
    (ingestStep acc.1 peer c, acc.2 ++ [.applied c.hash])) (s, [])
  (saveFn run.1.pojo, run.1, run.2 ++ [.saved run.1.pojo])

/-- JS `Set.prototype.intersection(other)`: the elements lying in both sets. -/
def jsIntersection (a b : List String) : List String :=
  a.filter (fun x => decide (x ∈ b))

/-- JS `Set.prototype.difference(other)`: the elements of `a` not in `b`. -/
def setDiff (a b : List String) : List String :=
  a.filter (fun x => decide (x ∉ b))

/-- The intersection size of the best candidate so far
(`peerWithMostHeads?.intersection.size || 0`). -/
def bestSize : Option (String × List String) → Nat
  | none => 0
  | some b => b.2.length

/-- One step of the `for (const [peer, heads] of peerHeads)` scan: replace the
candidate only on a strictly larger intersection, so the first peer attaining
the maximum is kept. -/
def pickStep (rem : List String) (best : Option (String × List String))
    (kv : String × List String) : Option (String × List String) :=
  if (jsIntersection kv.2 rem).length > bestSize best then some (kv.1, jsIntersection kv.2 rem)
  else best

/-- The inner scan of `calculatePeersToDownloadFrom`: the peer whose head set
has the largest intersection with the remaining heads, `none` when every
intersection is empty. -/
def pickGreedy (peerHeads : List (String × List String)) (rem : List String) :
    Option (String × List String) :=
  peerHeads.foldl (pickStep rem) none

/-- The message of the throw in `calculatePeersToDownloadFrom`. -/
def greedyErrorMsg : String :=
  "Error in calculatePeersToDownloadFrom() algorithm: didnt find any peer with heads."

/-- The `while (headsRemaining.size > 0)` loop of
`calculatePeersToDownloadFrom`: pick the best peer, record it, remove its
intersection from the remaining heads; throw (here: `Except.error`) when no
peer intersects the remaining heads. -/
def greedyLoop (peerHeads : List (String × List String)) (rem : List String) :
    Except String (List String) :=
  if rem.isEmpty then .ok []
  else
    match h : pickGreedy peerHeads rem with
    | none => .error greedyErrorMsg
    | some best =>
        (greedyLoop peerHeads (setDiff rem best.2)).map (fun ps => best.1 :: ps)
termination_by rem.length
decreasing_by
  have key : ∀ (l : List (String × List String)) (acc : Option (String × List String)),
      (∀ p inter, acc = some (p, inter) → 0 < inter.length ∧ ∀ x ∈ inter, x ∈ rem) →
      ∀ p inter, l.foldl (pickStep rem) acc = some (p, inter) →
        0 < inter.length ∧ ∀ x ∈ inter, x ∈ rem := by
    intro l
    induction l with
    | nil => intro acc hacc p inter h0; exact hacc p inter h0
    | cons kv l ih =>
        intro acc hacc p inter h0
        refine ih (pickStep rem acc kv) ?_ p inter h0
        intro q qinter hq
        unfold pickStep at hq
        split at hq
        · rename_i hcond
          rw [Option.some.injEq, Prod.mk.injEq] at hq
          obtain ⟨rfl, rfl⟩ := hq
          refine ⟨by omega, ?_⟩
          intro x hx
          simpa [jsIntersection] using (List.mem_filter.mp hx).2
        · exact hacc q qinter hq
  have hbest := key peerHeads none (by intro p inter h0; cases h0) best.1 best.2
    (by rw [Prod.mk.eta]; exact h)
  obtain ⟨hpos, hsub⟩ := hbest
  have hne : best.2 ≠ [] := by
    intro hnil; rw [hnil] at hpos; simp at hpos
  obtain ⟨x, hxmem⟩ := List.exists_mem_of_ne_nil best.2 hne
  have hxrem : x ∈ rem := hsub x hxmem
  have hdrop : ∀ (l : List String), x ∈ l →
      (l.filter (fun y => decide (y ∉ best.2))).length < l.length := by
    intro l hl
    induction l with
    | nil => cases hl
    | cons a l ih =>
        rcases List.mem_cons.mp hl with rfl | hl'
        · simp only [List.filter_cons, decide_not]
          rw [decide_eq_true hxmem]
          simp only [Bool.not_true, List.length_cons]
          exact Nat.lt_succ_of_le (List.length_filter_le _ _)
        · simp only [List.filter_cons]
          cases _hpred : (decide (a ∉ best.2)) with
          | true => simpa using Nat.succ_lt_succ (ih hl')
          | false => exact Nat.lt_succ_of_lt (ih hl')
  exact hdrop rem hxrem

/-- `HeadSyncer.calculatePeersToDownloadFrom`: invert `headPeers` into the map
from each peer to the heads it is known to have. -/
def buildPeerHeads (headPeers : List (String × List String)) : List (String × List String) :=
  headPeers.foldl (fun phs kv => kv.2.foldl (fun phs peer => mapAddToSet phs peer kv.1) phs) []

/-- `HeadSyncer.calculatePeersToDownloadFrom`: greedy cover of the current
heads by peers, a throw modelled as `Except.error`. -/
def calculatePeersToDownloadFrom (s : HeadSyncer) : Except String (List String) :=
  greedyLoop (buildPeerHeads s.headPeers) (jsSetOf s.changes.heads)

/-- `HeadSyncer.getPeerHeads`: the heads attributed to one peer (the first
entry of the map, which never holds a duplicate key in a live coordinator). -/
def getPeerHeads (s : HeadSyncer) (id : String) : List String :=
  ((s.headPeers.find? (fun kv => kv.1 == id)).map (fun kv => kv.2)).getD []

/-- `HeadSyncer.getLatestHeads`. -/
def getLatestHeads (s : HeadSyncer) : List String :=
  s.changes.heads

/-- The first value stored under a key of an association list. -/
def lookupSet (m : List (String × List String)) (k : String) : List String :=
  ((m.find? (fun kv => kv.1 == k)).map (fun kv => kv.2)).getD []

/-- The union (as a concatenation) of the head sets attributed to the listed
peers by the inverted `peerHeads` map. -/
def attributedUnion (phs : List (String × List String)) (ps : List String) : List String :=
  ps.foldl (fun acc p => acc ++ lookupSet phs p) []

/-- The structural invariant of the dependency graph: every head is a known
node, every missing hash is unknown but referenced by some node, and every
known node that no node depends on is a head. -/
def GraphInv (g : ChangeGraph) : Prop :=
  (∀ h ∈ g.heads, mapHas g.nodes h = true) ∧
  (∀ m ∈ g.missing, mapHas g.nodes m = false) ∧
  (∀ m ∈ g.missing, ∃ kv ∈ g.nodes, m ∈ kv.2) ∧
  (∀ h, mapHas g.nodes h = true → (∀ kv ∈ g.nodes, h ∉ kv.2) → h ∈ g.heads)

/-- `ps` is a greedy selection sequence over the inverted map `peerHeads` for
the remaining heads `rem`: selection stops exactly when no head remains, and
each selected peer is the first one in `peerHeads` whose attributed head set
has the strictly largest intersection with the remaining heads at the moment
it is selected; that intersection is then removed from the remaining heads. -/
inductive GreedyCover (peerHeads : List (String × List String)) :
    List String → List String → Prop where
  | nil : GreedyCover peerHeads [] []
  | cons (rem : List String) (p : String) (hs : List String)
      (pre post : List (String × List String)) (ps : List String) :
      peerHeads = pre ++ (p, hs) :: post →
      0 < (jsIntersection hs rem).length →
      (∀ kv ∈ peerHeads, (jsIntersection kv.2 rem).length ≤ (jsIntersection hs rem).length) →
      (∀ kv ∈ pre, (jsIntersection kv.2 rem).length < (jsIntersection hs rem).length) →
      GreedyCover peerHeads (setDiff rem (jsIntersection hs rem)) ps →
      GreedyCover peerHeads rem (p :: ps)

/-- After a peer's batch containing the change `c` has been applied: `c.hash`
is a known node, and — whenever it is still a head — `headPeers` has an entry
for it and every entry under that key credits the peer. -/
def PeerRecorded (t : HeadSyncer) (peer : String) (c : PartialChange) : Prop :=
  mapHas t.changes.nodes c.hash = true ∧
  (c.hash ∈ t.changes.heads →
    (∃ kv ∈ t.headPeers, kv.1 = c.hash) ∧
    (∀ kv ∈ t.headPeers, kv.1 = c.hash → peer ∈ kv.2))

section MemLemmas

variable {α : Type} [DecidableEq α]

theorem mem_setAdd {s : List α} {x y : α} : y ∈ setAdd s x ↔ y ∈ s ∨ y = x := by
  unfold setAdd
  split
  · constructor
    · exact Or.inl
    · rintro (h | rfl) <;> [exact h; assumption]
  · simp [or_comm]

theorem mem_setDelete {s : List α} {x y : α} : y ∈ setDelete s x ↔ y ∈ s ∧ y ≠ x := by
  simp [setDelete]

theorem setAdd_of_mem {s : List α} {x : α} (h : x ∈ s) : setAdd s x = s := by
  simp [setAdd, h]

theorem mem_foldl_setAdd {l : List α} {init : List α} {y : α} :
    y ∈ l.foldl setAdd init ↔ y ∈ init ∨ y ∈ l := by
  induction l generalizing init with
  | nil => simp
  | cons a l ih =>
      simp only [List.foldl_cons, ih, mem_setAdd, List.mem_cons]
      tauto

theorem mem_jsSetOf {l : List α} {y : α} : y ∈ jsSetOf l ↔ y ∈ l := by
  simp [jsSetOf, mem_foldl_setAdd]

end MemLemmas

theorem mapHas_iff {β : Type} {m : List (String × β)} {k : String} :
    mapHas m k = true ↔ ∃ kv ∈ m, kv.1 = k := by
  simp [mapHas]

theorem mapHas_append {β : Type} {m m' : List (String × β)} {k : String} :
    mapHas (m ++ m') k = (mapHas m k || mapHas m' k) := by
  simp [mapHas]

theorem mapSet_of_not_has {β : Type} {m : List (String × β)} {k : String} {v : β}
    (h : mapHas m k = false) : mapSet m k v = m ++ [(k, v)] := by
  simp [mapSet, h]

theorem mem_mapDelete {β : Type} {m : List (String × β)} {k : String} {kv : String × β} :
    kv ∈ mapDelete m k ↔ kv ∈ m ∧ kv.1 ≠ k := by
  simp [mapDelete]

theorem depStep_nodes (acc : ChangeGraph × List String × List String) (d : String) :
    (depStep acc d).1.nodes = acc.1.nodes := by
  unfold depStep
  dsimp only
  split <;> split <;> rfl

theorem depStep_heads_mem (acc : ChangeGraph × List String × List String) (d x : String) :
    x ∈ (depStep acc d).1.heads ↔ x ∈ acc.1.heads ∧ x ≠ d := by
  unfold depStep
  dsimp only
  by_cases h1 : d ∈ acc.1.heads
  · simp only [if_pos h1]
    split <;> simp [mem_setDelete]
  · simp only [if_neg h1]
    split
    · constructor
      · intro hx
        exact ⟨hx, by rintro rfl; exact h1 hx⟩
      · exact And.left
    · constructor
      · intro hx
        exact ⟨hx, by rintro rfl; exact h1 hx⟩
      · exact And.left

theorem depStep_removed_mem (acc : ChangeGraph × List String × List String) (d x : String) :
    x ∈ (depStep acc d).2.1 ↔ x ∈ acc.2.1 ∨ (x = d ∧ d ∈ acc.1.heads) := by
  unfold depStep
  dsimp only
  by_cases h1 : d ∈ acc.1.heads
  · simp only [if_pos h1]
    split <;> simp [h1]
  · simp only [if_neg h1]
    split <;> simp [h1]

theorem depStep_missing_mem (acc : ChangeGraph × List String × List String) (d x : String) :
    x ∈ (depStep acc d).1.missing ↔
      x ∈ acc.1.missing ∨ (x = d ∧ mapHas acc.1.nodes d = false) := by
  unfold depStep
  dsimp only
  by_cases h1 : d ∈ acc.1.heads
  · simp only [if_pos h1]
    by_cases h2 : mapHas acc.1.nodes d = true
    · simp [h2]
    · simp only [Bool.not_eq_true] at h2
      simp [h2, mem_setAdd]
  · simp only [if_neg h1]
    by_cases h2 : mapHas acc.1.nodes d = true
    · simp [h2]
    · simp only [Bool.not_eq_true] at h2
      simp [h2, mem_setAdd]

theorem depStep_mds_mem (acc : ChangeGraph × List String × List String) (d x : String) :
    x ∈ (depStep acc d).2.2 ↔
      x ∈ acc.2.2 ∨ (x = d ∧ mapHas acc.1.nodes d = false) := by
  unfold depStep
  dsimp only
  by_cases h1 : d ∈ acc.1.heads
  · simp only [if_pos h1]
    by_cases h2 : mapHas acc.1.nodes d = true
    · simp [h2]
    · simp only [Bool.not_eq_true] at h2
      simp [h2]
  · simp only [if_neg h1]
    by_cases h2 : mapHas acc.1.nodes d = true
    · simp [h2]
    · simp only [Bool.not_eq_true] at h2
      simp [h2]

theorem depsFold_nodes (ds : List String) (acc : ChangeGraph × List String × List String) :
    (ds.foldl depStep acc).1.nodes = acc.1.nodes := by
  induction ds generalizing acc with
  | nil => rfl
  | cons d ds ih => rw [List.foldl_cons, ih, depStep_nodes]

theorem depsFold_heads_mem (ds : List String) (acc : ChangeGraph × List String × List String)
    (x : String) : x ∈ (ds.foldl depStep acc).1.heads ↔ x ∈ acc.1.heads ∧ x ∉ ds := by
  induction ds generalizing acc with
  | nil => simp
  | cons d ds ih =>
      rw [List.foldl_cons, ih, depStep_heads_mem]
      simp only [List.mem_cons]
      tauto

theorem depsFold_removed_mem (ds : List String) (acc : ChangeGraph × List String × List String)
    (x : String) :
    x ∈ (ds.foldl depStep acc).2.1 ↔ x ∈ acc.2.1 ∨ (x ∈ ds ∧ x ∈ acc.1.heads) := by
  induction ds generalizing acc with
  | nil => simp
  | cons d ds ih =>
      rw [List.foldl_cons, ih, depStep_removed_mem, depStep_heads_mem]
      simp only [List.mem_cons]
      constructor
      · rintro ((h | ⟨rfl, hd⟩) | ⟨hds, hh, hne⟩)
        · exact Or.inl h
        · exact Or.inr ⟨Or.inl rfl, hd⟩
        · exact Or.inr ⟨Or.inr hds, hh⟩
      · rintro (h | ⟨(rfl | hds), hh⟩)
        · exact Or.inl (Or.inl h)
        · exact Or.inl (Or.inr ⟨rfl, hh⟩)
        · by_cases hx : x = d
          · exact Or.inl (Or.inr ⟨hx, hx ▸ hh⟩)
          · exact Or.inr ⟨hds, hh, hx⟩

theorem depsFold_missing_mem (ds : List String) (acc : ChangeGraph × List String × List String)
    (x : String) :
    x ∈ (ds.foldl depStep acc).1.missing ↔
      x ∈ acc.1.missing ∨ (x ∈ ds ∧ mapHas acc.1.nodes x = false) := by
  induction ds generalizing acc with
  | nil => simp
  | cons d ds ih =>
      rw [List.foldl_cons, ih, depStep_missing_mem, depStep_nodes]
      simp only [List.mem_cons]
      constructor
      · rintro ((h | ⟨rfl, hd⟩) | ⟨hds, hh⟩)
        · exact Or.inl h
        · exact Or.inr ⟨Or.inl rfl, hd⟩
        · exact Or.inr ⟨Or.inr hds, hh⟩
      · rintro (h | ⟨(rfl | hds), hh⟩)
        · exact Or.inl (Or.inl h)
        · exact Or.inl (Or.inr ⟨rfl, hh⟩)
        · exact Or.inr ⟨hds, hh⟩

theorem depsFold_mds_mem (ds : List String) (acc : ChangeGraph × List String × List String)
    (x : String) :
    x ∈ (ds.foldl depStep acc).2.2 ↔
      x ∈ acc.2.2 ∨ (x ∈ ds ∧ mapHas acc.1.nodes x = false) := by
  induction ds generalizing acc with
  | nil => simp
  | cons d ds ih =>
      rw [List.foldl_cons, ih, depStep_mds_mem, depStep_nodes]
      simp only [List.mem_cons]
      constructor
      · rintro ((h | ⟨rfl, hd⟩) | ⟨hds, hh⟩)
        · exact Or.inl h
        · exact Or.inr ⟨Or.inl rfl, hd⟩
        · exact Or.inr ⟨Or.inr hds, hh⟩
      · rintro (h | ⟨(rfl | hds), hh⟩)
        · exact Or.inl (Or.inl h)
        · exact Or.inl (Or.inr ⟨rfl, hh⟩)
        · exact Or.inr ⟨hds, hh⟩

theorem addChange_already {g : ChangeGraph} {c : PartialChange}
    (h : mapHas g.nodes c.hash = true) : addChange g c = (g, .already_exists) := by
  simp [addChange, h]

theorem addChange_wasMissing {g : ChangeGraph} {c : PartialChange}
    (h1 : mapHas g.nodes c.hash = false) (h2 : c.hash ∈ g.missing) :
    addChange g c =
      (⟨g.nodes ++ [(c.hash, c.deps)], setDelete g.missing c.hash, g.heads⟩, .was_missing) := by
  simp [addChange, h1, h2, mapSet_of_not_has h1]

theorem addChange_newHead {g : ChangeGraph} {c : PartialChange}
    (h1 : mapHas g.nodes c.hash = false) (h2 : c.hash ∉ g.missing) :
    addChange g c =
      (((jsSetOf c.deps).foldl depStep
          (⟨g.nodes ++ [(c.hash, c.deps)], g.missing, setAdd g.heads c.hash⟩, [], [])).1,
        .new_head ((jsSetOf c.deps).foldl depStep
          (⟨g.nodes ++ [(c.hash, c.deps)], g.missing, setAdd g.heads c.hash⟩, [], [])).2.1
          ((jsSetOf c.deps).foldl depStep
          (⟨g.nodes ++ [(c.hash, c.deps)], g.missing, setAdd g.heads c.hash⟩, [], [])).2.2) := by
  simp [addChange, h1, h2, mapSet_of_not_has h1]

/-- Full characterization of the `NewHead` outcome of `addChange`. -/
theorem addChange_newHead_spec {g : ChangeGraph} {c : PartialChange}
    (h1 : mapHas g.nodes c.hash = false) (h2 : c.hash ∉ g.missing) :
    ∃ g' rm md, addChange g c = (g', .new_head rm md) ∧
      g'.nodes = g.nodes ++ [(c.hash, c.deps)] ∧
      (∀ x, x ∈ g'.heads ↔ (x ∈ g.heads ∨ x = c.hash) ∧ x ∉ c.deps) ∧
      (∀ x, x ∈ rm ↔ x ∈ c.deps ∧ (x ∈ g.heads ∨ x = c.hash)) ∧
      (∀ x, x ∈ md ↔ x ∈ c.deps ∧ mapHas (g.nodes ++ [(c.hash, c.deps)]) x = false) ∧
      (∀ x, x ∈ g'.missing ↔
        x ∈ g.missing ∨ (x ∈ c.deps ∧ mapHas (g.nodes ++ [(c.hash, c.deps)]) x = false)) := by
  rw [addChange_newHead h1 h2]
  refine ⟨_, _, _, rfl, ?_, ?_, ?_, ?_, ?_⟩
  · rw [depsFold_nodes]
  · intro x
    rw [depsFold_heads_mem]
    simp [mem_setAdd, mem_jsSetOf]
  · intro x
    rw [depsFold_removed_mem]
    simp only [List.not_mem_nil, false_or, mem_jsSetOf]
    constructor
    · rintro ⟨hd, hh⟩
      exact ⟨hd, (mem_setAdd.mp hh)⟩
    · rintro ⟨hd, hh⟩
      exact ⟨hd, mem_setAdd.mpr hh⟩
  · intro x
    rw [depsFold_mds_mem]
    simp [mem_jsSetOf]
  · intro x
    rw [depsFold_missing_mem]
    simp [mem_jsSetOf]

theorem mapHas_nil {β : Type} {k : String} : mapHas ([] : List (String × β)) k = false := rfl

theorem mapHas_singleton {β : Type} {k x : String} {v : β} :
    mapHas [(k, v)] x = (k == x) := by
  simp [mapHas]

theorem GraphInv_empty : GraphInv emptyCG := by
  refine ⟨?_, ?_, ?_, ?_⟩
  · intro x hx
    exact absurd hx (List.not_mem_nil x)
  · intro x hx
    exact absurd hx (List.not_mem_nil x)
  · intro x hx
    exact absurd hx (List.not_mem_nil x)
  · intro x hx _
    simp [emptyCG, mapHas] at hx

theorem GraphInv_addChange {g : ChangeGraph} {c : PartialChange} (hg : GraphInv g) :
    GraphInv (addChange g c).1 := by
  obtain ⟨inv1, inv2, inv3, inv4⟩ := hg
  by_cases h1 : mapHas g.nodes c.hash = true
  · rw [addChange_already h1]
    exact ⟨inv1, inv2, inv3, inv4⟩
  · rw [Bool.not_eq_true] at h1
    by_cases h2 : c.hash ∈ g.missing
    · rw [addChange_wasMissing h1 h2]
      refine ⟨?_, ?_, ?_, ?_⟩
      · intro h hh
        rw [mapHas_append, inv1 h hh]
        rfl
      · intro m hm
        rw [mem_setDelete] at hm
        rw [mapHas_append, inv2 m hm.1, mapHas_singleton]
        simp [Ne.symm hm.2]
      · intro m hm
        rw [mem_setDelete] at hm
        obtain ⟨kv, hkv, hmk⟩ := inv3 m hm.1
        exact ⟨kv, List.mem_append_left _ hkv, hmk⟩
      · intro h hh hnod
        rw [mapHas_append, Bool.or_eq_true, mapHas_singleton, beq_iff_eq] at hh
        rcases hh with hh | rfl
        · refine inv4 h hh ?_
          intro kv hkv
          exact hnod kv (List.mem_append_left _ hkv)
        · obtain ⟨kv, hkv, hmk⟩ := inv3 _ h2
          exact absurd hmk (hnod kv (List.mem_append_left _ hkv))
    · obtain ⟨g', rm, md, heq, hnodes, hheads, _hrm, _hmd, hmissing⟩ :=
        addChange_newHead_spec h1 h2
      rw [heq]
      dsimp only
      refine ⟨?_, ?_, ?_, ?_⟩
      · intro h hh
        rw [hnodes, mapHas_append, Bool.or_eq_true, mapHas_singleton, beq_iff_eq]
        rcases (hheads h).mp hh with ⟨hh' | rfl, _⟩
        · exact Or.inl (inv1 h hh')
        · exact Or.inr rfl
      · intro m hm
        rw [hnodes, mapHas_append]
        rcases (hmissing m).mp hm with hm' | ⟨_, hfalse⟩
        · rw [inv2 m hm', mapHas_singleton]
          simp
          rintro rfl
          exact h2 hm'
        · rwa [mapHas_append] at hfalse
      · intro m hm
        rcases (hmissing m).mp hm with hm' | ⟨hdep, _⟩
        · obtain ⟨kv, hkv, hmk⟩ := inv3 m hm'
          exact ⟨kv, hnodes ▸ List.mem_append_left _ hkv, hmk⟩
        · exact ⟨(c.hash, c.deps), hnodes ▸ List.mem_append_right _ (by simp), hdep⟩
      · intro h hh hnod
        have hdepmem : (c.hash, c.deps) ∈ g'.nodes := by
          rw [hnodes]
          exact List.mem_append_right _ (by simp)
        have hnotdep : h ∉ c.deps := hnod _ hdepmem
        rw [hnodes, mapHas_append, Bool.or_eq_true, mapHas_singleton, beq_iff_eq] at hh
        rcases hh with hh | rfl
        · refine (hheads h).mpr ⟨Or.inl ?_, hnotdep⟩
          refine inv4 h hh ?_
          intro kv hkv
          exact hnod kv (hnodes ▸ List.mem_append_left _ hkv)
        · exact (hheads _).mpr ⟨Or.inr rfl, hnotdep⟩

theorem GraphInv_foldl {g : ChangeGraph} (cs : List PartialChange) (hg : GraphInv g) :
    GraphInv (cs.foldl (fun g c => (addChange g c).1) g) := by
  induction cs generalizing g with
  | nil => exact hg
  | cons c cs ih => exact ih (GraphInv_addChange hg)

theorem GraphInv_graphOfList (cs : List PartialChange) : GraphInv (graphOfList cs) :=
  GraphInv_foldl cs GraphInv_empty

/-- C2, counterexample: in the graph reached by ingesting C (deps [A]), B (no
deps), then A (deps [B]), the hash B is still a head although the node A lists
B among its deps — the `WasMissing` branch of `addChange` does not process the
deps of the arriving node, so the stated head invariant fails in the
"only if" direction. -/
theorem C2_head_iff_counterexample :
    "B" ∈ (graphOfList [⟨"C", ["A"]⟩, ⟨"B", []⟩, ⟨"A", ["B"]⟩]).heads ∧
    mapHas (graphOfList [⟨"C", ["A"]⟩, ⟨"B", []⟩, ⟨"A", ["B"]⟩]).nodes "B" = true ∧
    ∃ kv ∈ (graphOfList [⟨"C", ["A"]⟩, ⟨"B", []⟩, ⟨"A", ["B"]⟩]).nodes, "B" ∈ kv.2 := by
  decide

/-- C2, amended: for every graph reachable from the empty graph by `addChange`
calls, every head is a key of `nodes`, and every key of `nodes` that no key of
`nodes` lists among its deps is a head.  (The converse — that a head is never
listed among a node's deps — fails, see the counterexample: a node arriving
through the `WasMissing` branch may list a head without dethroning it.) -/
theorem C2_head_invariant_amended (cs : List PartialChange) (h : String) :
    (h ∈ (graphOfList cs).heads → mapHas (graphOfList cs).nodes h = true) ∧
    (mapHas (graphOfList cs).nodes h = true →
      (∀ kv ∈ (graphOfList cs).nodes, h ∉ kv.2) → h ∈ (graphOfList cs).heads) := by
  obtain ⟨inv1, _, _, inv4⟩ := GraphInv_graphOfList cs
  exact ⟨inv1 h, inv4 h⟩

/-- Witness for `C2_head_invariant_amended` at the one-change graph of B with
dep A. -/
theorem C2_head_invariant_amended_witness :
    "B" ∈ (graphOfList [⟨"B", ["A"]⟩]).heads ∧
    mapHas (graphOfList [⟨"B", ["A"]⟩]).nodes "B" = true ∧
    (∀ kv ∈ (graphOfList [⟨"B", ["A"]⟩]).nodes, "B" ∉ kv.2) ∧
    "B" ∈ (graphOfList [⟨"B", ["A"]⟩]).heads :=
  ⟨(C2_head_invariant_amended [⟨"B", ["A"]⟩] "B").2 (by decide) (by decide),
    by decide, by decide,
    (C2_head_invariant_amended [⟨"B", ["A"]⟩] "B").2 (by decide) (by decide)⟩

/-- C6: starting from the empty graph, after `addChange` of b depending on the
not-yet-seen a, the hash a is missing and b is a head; a subsequent
`addChange` of a (no deps) reports `WasMissing`, removes a from `missing`, and
does not make a a head. -/
theorem C6_missing_then_filled (a b : String) (hab : a ≠ b) :
    a ∈ (addChange emptyCG ⟨b, [a]⟩).1.missing ∧
    b ∈ (addChange emptyCG ⟨b, [a]⟩).1.heads ∧
    (addChange (addChange emptyCG ⟨b, [a]⟩).1 ⟨a, []⟩).2 = .was_missing ∧
    a ∉ (addChange (addChange emptyCG ⟨b, [a]⟩).1 ⟨a, []⟩).1.missing ∧
    a ∉ (addChange (addChange emptyCG ⟨b, [a]⟩).1 ⟨a, []⟩).1.heads := by
  have hba : b ≠ a := Ne.symm hab
  have step1 : addChange emptyCG ⟨b, [a]⟩ = (⟨[(b, [a])], [a], [b]⟩, .new_head [] [a]) := by
    simp [addChange, emptyCG, mapHas, mapSet, jsSetOf, setAdd, depStep, hab, hba]
  have step2 : addChange (⟨[(b, [a])], [a], [b]⟩ : ChangeGraph) ⟨a, []⟩ =
      (⟨[(b, [a]), (a, [])], [], [b]⟩, .was_missing) := by
    simp [addChange, mapHas, mapSet, setDelete, jsSetOf, hab, hba, List.filter]
  rw [step1]
  dsimp only
  rw [step2]
  refine ⟨by simp, by simp, rfl, by simp, by simp [hab]⟩

/-- Witness for `C6_missing_then_filled` at a = "A", b = "B". -/
theorem C6_missing_then_filled_witness :
    ("A" : String) ≠ "B" ∧
    ("A" ∈ (addChange emptyCG ⟨"B", ["A"]⟩).1.missing ∧
      "B" ∈ (addChange emptyCG ⟨"B", ["A"]⟩).1.heads ∧
      (addChange (addChange emptyCG ⟨"B", ["A"]⟩).1 ⟨"A", []⟩).2 = .was_missing ∧
      "A" ∉ (addChange (addChange emptyCG ⟨"B", ["A"]⟩).1 ⟨"A", []⟩).1.missing ∧
      "A" ∉ (addChange (addChange emptyCG ⟨"B", ["A"]⟩).1 ⟨"A", []⟩).1.heads) :=
  ⟨by decide, C6_missing_then_filled "A" "B" (by decide)⟩

/-- C7: `addChange` of a summary whose hash is neither known nor missing
returns `NewHead`, inserts the hash with its deps into `nodes`, adds it to
`heads` (where it stays unless it lists itself as a dep), and for each
distinct dep: exactly those deps that were heads at their processing moment
end up in `removedHeads` and are no longer heads, and exactly those deps that
are not keys of `nodes` end up in `missingDeps` and in `missing`. -/
theorem C7_new_head_outcome (g : ChangeGraph) (c : PartialChange)
    (h1 : mapHas g.nodes c.hash = false) (h2 : c.hash ∉ g.missing) :
    ∃ g' rm md, addChange g c = (g', .new_head rm md) ∧
      g'.nodes = g.nodes ++ [(c.hash, c.deps)] ∧
      (c.hash ∉ c.deps → c.hash ∈ g'.heads) ∧
      (∀ d, d ∈ rm ↔ d ∈ c.deps ∧ (d ∈ g.heads ∨ d = c.hash)) ∧
      (∀ d, d ∈ rm → d ∉ g'.heads) ∧
      (∀ d, d ∈ md ↔ d ∈ c.deps ∧ mapHas g'.nodes d = false) ∧
      (∀ d, d ∈ md → d ∈ g'.missing) := by
  obtain ⟨g', rm, md, heq, hnodes, hheads, hrm, hmd, hmissing⟩ := addChange_newHead_spec h1 h2
  refine ⟨g', rm, md, heq, hnodes, ?_, hrm, ?_, ?_, ?_⟩
  · intro hself
    exact (hheads c.hash).mpr ⟨Or.inr rfl, hself⟩
  · intro d hd
    intro hmem
    exact ((hheads d).mp hmem).2 ((hrm d).mp hd).1
  · intro d
    rw [hmd d, hnodes]
  · intro d hd
    rw [hmd d] at hd
    exact (hmissing d).mpr (Or.inr hd)

/-- C1: the round trip fails on `headPeers`.  At the reachable state obtained
by ingesting the single change h (no deps) from peer p1, the live `headPeers`
maps h to the peer-id string "p1", but reloading the serialized snapshot
through `HeadSyncer.init` maps h to the set of the characters p and 1 —
`v.map((x) => new Set(x))` builds a set from each peer-id string instead of a
set of the peer ids.  The graph part of the snapshot does round-trip at this
state, isolating the defect in the `headPeers` reconstruction. -/
theorem C1_roundtrip_headPeers_bug :
    observeHeadPeers (ingestChanges emptyHS "p1" [⟨"h", []⟩]) = [("h", [JsVal.str "p1"])] ∧
    observeLoadedHeadPeers (HeadSyncer.pojo (ingestChanges emptyHS "p1" [⟨"h", []⟩])) =
      [("h", [JsVal.charSet ['p', '1']])] ∧
    observeLoadedHeadPeers (HeadSyncer.pojo (ingestChanges emptyHS "p1" [⟨"h", []⟩])) ≠
      observeHeadPeers (ingestChanges emptyHS "p1" [⟨"h", []⟩]) ∧
    initChangeGraph (ChangeGraph.pojo (ingestChanges emptyHS "p1" [⟨"h", []⟩]).changes) =
      (ingestChanges emptyHS "p1" [⟨"h", []⟩]).changes := by
  decide

/-- C9: every `ingestChanges` call issues exactly one storage save, after the
whole batch is applied in memory; the payload is the serialization of the
final in-memory state, and the save outcome (in particular a failure) is
returned to the caller unchanged while the in-memory state still reflects the
full batch. -/
theorem C9_single_save_after_batch {E : Type} (saveFn : HeadSyncerPojo → Except E Unit)
    (s : HeadSyncer) (peer : String) (cs : List PartialChange) :
    (ingestChangesRun saveFn s peer cs).2.1 = ingestChanges s peer cs ∧
    (ingestChangesRun saveFn s peer cs).2.2 =
      cs.map (fun c => StorageEvent.applied c.hash) ++
        [StorageEvent.saved (ingestChanges s peer cs).pojo] ∧
    ((ingestChangesRun saveFn s peer cs).2.2.filter StorageEvent.isSave).length = 1 ∧
    (ingestChangesRun saveFn s peer cs).1 = saveFn (ingestChanges s peer cs).pojo := by
  have key : ∀ (cs : List PartialChange) (s : HeadSyncer) (evs : List StorageEvent),
      cs.foldl (fun (acc : HeadSyncer × List StorageEvent) c =>
        (ingestStep acc.1 peer c, acc.2 ++ [.applied c.hash])) (s, evs) =
      (ingestChanges s peer cs, evs ++ cs.map (fun c => .applied c.hash)) := by
    intro cs
    induction cs with
    | nil => intro s evs; simp [ingestChanges]
    | cons c cs ih =>
        intro s evs
        rw [List.foldl_cons]
        dsimp only
        rw [ih (ingestStep s peer c) (evs ++ [StorageEvent.applied c.hash])]
        simp [ingestChanges]
  have hrun : ingestChangesRun saveFn s peer cs =
      (saveFn (ingestChanges s peer cs).pojo, ingestChanges s peer cs,
        cs.map (fun c => .applied c.hash) ++ [.saved (ingestChanges s peer cs).pojo]) := by
    unfold ingestChangesRun
    rw [key cs s []]
    simp
  rw [hrun]
  refine ⟨rfl, rfl, ?_, rfl⟩
  rw [List.filter_append]
  have happlied : ∀ (l : List PartialChange),
      (l.map (fun c => StorageEvent.applied c.hash)).filter StorageEvent.isSave = [] := by
    intro l
    induction l with
    | nil => rfl
    | cons c l ih =>
        simp only [List.map_cons, List.filter_cons, StorageEvent.isSave, Bool.false_eq_true,
          if_false]
        exact ih
  rw [happlied cs]
  rfl

theorem ingestStep_already {s : HeadSyncer} {peer : String} {c : PartialChange}
    (h : mapHas s.changes.nodes c.hash = true) :
    ingestStep s peer c =
      if c.hash ∈ s.changes.heads then
        ⟨s.changes, mapAddToSet s.headPeers c.hash peer⟩
      else s := by
  unfold ingestStep
  rw [addChange_already h]

theorem ingestStep_wasMissing {s : HeadSyncer} {peer : String} {c : PartialChange}
    (h1 : mapHas s.changes.nodes c.hash = false) (h2 : c.hash ∈ s.changes.missing) :
    ingestStep s peer c =
      ⟨⟨s.changes.nodes ++ [(c.hash, c.deps)], setDelete s.changes.missing c.hash,
        s.changes.heads⟩, s.headPeers⟩ := by
  unfold ingestStep
  rw [addChange_wasMissing h1 h2]

theorem ingestStep_eq_of_newHead {s : HeadSyncer} {peer : String} {c : PartialChange}
    {g' : ChangeGraph} {rm md : List String}
    (h : addChange s.changes c = (g', .new_head rm md)) :
    ingestStep s peer c =
      ⟨g', rm.foldl mapDelete (mapAddToSet s.headPeers c.hash peer)⟩ := by
  unfold ingestStep
  rw [h]

theorem keys_mapAddToSet {m : List (String × List String)} {k x q : String} :
    (∃ kv ∈ mapAddToSet m k x, kv.1 = q) ↔ (∃ kv ∈ m, kv.1 = q) ∨ q = k := by
  unfold mapAddToSet
  by_cases hk : mapHas m k = true
  · rw [if_pos hk]
    constructor
    · rintro ⟨kv, hkv, hq⟩
      obtain ⟨kv0, hkv0, rfl⟩ := List.mem_map.mp hkv
      refine Or.inl ⟨kv0, hkv0, ?_⟩
      rw [← hq]
      split <;> rfl
    · rintro (⟨kv, hkv, hq⟩ | hqk)
      · refine ⟨if kv.1 == k then (kv.1, setAdd kv.2 x) else kv, List.mem_map_of_mem _ hkv, ?_⟩
        split <;> simp [hq]
      · obtain ⟨kv, hkv, hq⟩ := mapHas_iff.mp hk
        refine ⟨if kv.1 == k then (kv.1, setAdd kv.2 x) else kv, List.mem_map_of_mem _ hkv, ?_⟩
        split <;> simp [hq, hqk]
  · rw [if_neg hk]
    constructor
    · rintro ⟨kv, hkv, hq⟩
      rcases List.mem_append.mp hkv with hkv | hkv
      · exact Or.inl ⟨kv, hkv, hq⟩
      · simp only [List.mem_singleton] at hkv
        subst hkv
        exact Or.inr hq.symm
    · rintro (⟨kv, hkv, hq⟩ | rfl)
      · exact ⟨kv, List.mem_append_left _ hkv, hq⟩
      · exact ⟨(q, [x]), List.mem_append_right _ (by simp), rfl⟩

theorem keys_mapDelete {m : List (String × List String)} {r q : String} :
    (∃ kv ∈ mapDelete m r, kv.1 = q) ↔ (∃ kv ∈ m, kv.1 = q) ∧ q ≠ r := by
  constructor
  · rintro ⟨kv, hkv, rfl⟩
    obtain ⟨hm, hne⟩ := mem_mapDelete.mp hkv
    exact ⟨⟨kv, hm, rfl⟩, hne⟩
  · rintro ⟨⟨kv, hkv, rfl⟩, hne⟩
    exact ⟨kv, mem_mapDelete.mpr ⟨hkv, hne⟩, rfl⟩

theorem keys_foldl_mapDelete {rm : List String} {m : List (String × List String)} {q : String} :
    (∃ kv ∈ rm.foldl mapDelete m, kv.1 = q) ↔ (∃ kv ∈ m, kv.1 = q) ∧ q ∉ rm := by
  induction rm generalizing m with
  | nil => simp
  | cons r rm ih =>
      rw [List.foldl_cons, ih, keys_mapDelete]
      simp only [List.mem_cons]
      tauto

theorem keysEq_ingestStep {s : HeadSyncer} {peer : String} {c : PartialChange}
    (ih : ∀ q, (∃ kv ∈ s.headPeers, kv.1 = q) ↔ q ∈ s.changes.heads) (q : String) :
    (∃ kv ∈ (ingestStep s peer c).headPeers, kv.1 = q) ↔
      q ∈ (ingestStep s peer c).changes.heads := by
  by_cases h1 : mapHas s.changes.nodes c.hash = true
  · rw [ingestStep_already h1]
    by_cases hh : c.hash ∈ s.changes.heads
    · rw [if_pos hh]
      dsimp only
      rw [keys_mapAddToSet, ih q]
      constructor
      · rintro (hq | rfl)
        · exact hq
        · exact hh
      · exact Or.inl
    · rw [if_neg hh]
      exact ih q
  · rw [Bool.not_eq_true] at h1
    by_cases h2 : c.hash ∈ s.changes.missing
    · rw [ingestStep_wasMissing h1 h2]
      exact ih q
    · obtain ⟨g', rm, md, heq, _hnodes, hheads, hrm, _hmd, _hmissing⟩ :=
        addChange_newHead_spec h1 h2
      rw [ingestStep_eq_of_newHead heq]
      dsimp only
      rw [keys_foldl_mapDelete, keys_mapAddToSet, ih q, hheads q, hrm q]
      tauto

theorem keysEq_ingestChanges {s : HeadSyncer} {peer : String} {cs : List PartialChange}
    (hs : ∀ q, (∃ kv ∈ s.headPeers, kv.1 = q) ↔ q ∈ s.changes.heads) :
    ∀ q, (∃ kv ∈ (ingestChanges s peer cs).headPeers, kv.1 = q) ↔
      q ∈ (ingestChanges s peer cs).changes.heads := by
  induction cs generalizing s with
  | nil => exact hs
  | cons c cs ih => exact ih (fun q => keysEq_ingestStep hs q)

/-- C3: for every reachable coordinator state (in particular after every
completed `ingestChanges` call), the set of keys of `headPeers` equals the
`heads` set exactly. -/
theorem C3_headPeers_keys_eq_heads (s : HeadSyncer) (hr : ReachableHS s) :
    ∀ q, (∃ kv ∈ s.headPeers, kv.1 = q) ↔ q ∈ s.changes.heads := by
  induction hr with
  | empty =>
      intro q
      constructor
      · rintro ⟨kv, hkv, _⟩
        exact absurd hkv (List.not_mem_nil kv)
      · intro hq
        exact absurd hq (List.not_mem_nil q)
  | ingest s peer cs _hs ih => exact keysEq_ingestChanges ih

/-- Witness for `C3_headPeers_keys_eq_heads` after ingesting one change from
one peer. -/
theorem C3_headPeers_keys_eq_heads_witness :
    "h" ∈ (ingestChanges emptyHS "p" [⟨"h", []⟩]).changes.heads :=
  (C3_headPeers_keys_eq_heads (ingestChanges emptyHS "p" [⟨"h", []⟩])
    (ReachableHS.ingest emptyHS "p" [⟨"h", []⟩] ReachableHS.empty) "h").mp (by decide)

theorem map_eq_self_of_mem {α : Type} {l : List α} {f : α → α} (h : ∀ a ∈ l, f a = a) :
    l.map f = l := by
  induction l with
  | nil => rfl
  | cons a l ih =>
      rw [List.map_cons, h a (List.mem_cons_self a l), ih (fun b hb => h b (List.mem_cons_of_mem a hb))]

theorem mapAddToSet_entry_mem {m : List (String × List String)} {k x : String} :
    ∀ kv ∈ mapAddToSet m k x, kv.1 = k → x ∈ kv.2 := by
  intro kv hkv hk
  unfold mapAddToSet at hkv
  by_cases hhas : mapHas m k = true
  · rw [if_pos hhas] at hkv
    obtain ⟨kv0, hkv0, rfl⟩ := List.mem_map.mp hkv
    by_cases hbk : (kv0.1 == k) = true
    · rw [if_pos hbk]
      exact mem_setAdd.mpr (Or.inr rfl)
    · rw [if_neg (by simpa using hbk)] at hk
      rw [beq_iff_eq] at hbk
      exact absurd hk hbk
  · rw [if_neg hhas] at hkv
    rcases List.mem_append.mp hkv with hkv | hkv
    · exact absurd (mapHas_iff.mpr ⟨kv, hkv, hk⟩) hhas
    · simp only [List.mem_singleton] at hkv
      subst hkv
      simp

theorem mapAddToSet_entries {m : List (String × List String)} {k x : String} :
    ∀ kv ∈ mapAddToSet m k x,
      kv = (k, [x]) ∨ ∃ kv0 ∈ m, kv.1 = kv0.1 ∧ ∀ y ∈ kv0.2, y ∈ kv.2 := by
  intro kv hkv
  unfold mapAddToSet at hkv
  split at hkv
  · obtain ⟨kv0, hkv0, rfl⟩ := List.mem_map.mp hkv
    refine Or.inr ⟨kv0, hkv0, ?_⟩
    split
    · exact ⟨rfl, fun y hy => mem_setAdd.mpr (Or.inl hy)⟩
    · exact ⟨rfl, fun y hy => hy⟩
  · rcases List.mem_append.mp hkv with hkv | hkv
    · exact Or.inr ⟨kv, hkv, rfl, fun y hy => hy⟩
    · simp only [List.mem_singleton] at hkv
      exact Or.inl hkv

theorem mem_foldl_mapDelete {rm : List String} {m : List (String × List String)}
    {kv : String × List String} (h : kv ∈ rm.foldl mapDelete m) : kv ∈ m := by
  induction rm generalizing m with
  | nil => exact h
  | cons r rm ih => exact (mem_mapDelete.mp (ih h)).1

theorem mapAddToSet_eq_self {m : List (String × List String)} {k x : String}
    (hkey : ∃ kv ∈ m, kv.1 = k) (hx : ∀ kv ∈ m, kv.1 = k → x ∈ kv.2) :
    mapAddToSet m k x = m := by
  unfold mapAddToSet
  rw [if_pos (mapHas_iff.mpr hkey)]
  refine map_eq_self_of_mem ?_
  intro kv hkv
  split
  · rename_i hbk
    rw [beq_iff_eq] at hbk
    rw [setAdd_of_mem (hx kv hkv hbk)]
  · rfl

theorem nodes_mono_ingestStep {s : HeadSyncer} {peer : String} {c : PartialChange} {q : String}
    (h : mapHas s.changes.nodes q = true) :
    mapHas (ingestStep s peer c).changes.nodes q = true := by
  by_cases h1 : mapHas s.changes.nodes c.hash = true
  · rw [ingestStep_already h1]
    split <;> exact h
  · rw [Bool.not_eq_true] at h1
    by_cases h2 : c.hash ∈ s.changes.missing
    · rw [ingestStep_wasMissing h1 h2]
      dsimp only
      rw [mapHas_append, h]
      rfl
    · obtain ⟨g', rm, md, heq, hnodes, _, _, _, _⟩ := addChange_newHead_spec h1 h2
      rw [ingestStep_eq_of_newHead heq]
      dsimp only
      rw [hnodes, mapHas_append, h]
      rfl

theorem GraphInv_ingestStep {s : HeadSyncer} {peer : String} {c : PartialChange}
    (h : GraphInv s.changes) : GraphInv (ingestStep s peer c).changes := by
  have hch : (ingestStep s peer c).changes = (addChange s.changes c).1 := by
    unfold ingestStep
    rcases _haddc : addChange s.changes c with ⟨g', res⟩
    cases res
    · rfl
    · dsimp only
      split <;> rfl
    · rfl
  rw [hch]
  exact GraphInv_addChange h

theorem GraphInv_ingestChanges {s : HeadSyncer} {peer : String} {cs : List PartialChange}
    (h : GraphInv s.changes) : GraphInv (ingestChanges s peer cs).changes := by
  induction cs generalizing s with
  | nil => exact h
  | cons c cs ih => exact ih (GraphInv_ingestStep h)

theorem GraphInv_reachable {s : HeadSyncer} (hr : ReachableHS s) : GraphInv s.changes := by
  induction hr with
  | empty => exact GraphInv_empty
  | ingest s peer cs _hs ih => exact GraphInv_ingestChanges ih

theorem peerRecorded_ingestStep_self {s : HeadSyncer} {peer : String} {c : PartialChange}
    (hg : GraphInv s.changes) : PeerRecorded (ingestStep s peer c) peer c := by
  by_cases h1 : mapHas s.changes.nodes c.hash = true
  · rw [ingestStep_already h1]
    by_cases hh : c.hash ∈ s.changes.heads
    · rw [if_pos hh]
      refine ⟨h1, fun _ => ⟨?_, ?_⟩⟩
      · exact keys_mapAddToSet.mpr (Or.inr rfl)
      · exact fun kv hkv hk => mapAddToSet_entry_mem kv hkv hk
    · rw [if_neg hh]
      exact ⟨h1, fun hmem => absurd hmem hh⟩
  · rw [Bool.not_eq_true] at h1
    by_cases h2 : c.hash ∈ s.changes.missing
    · rw [ingestStep_wasMissing h1 h2]
      refine ⟨?_, ?_⟩
      · dsimp only
        rw [mapHas_append, mapHas_singleton]
        simp
      · intro hmem
        exact absurd (hg.1 c.hash hmem) (by rw [h1]; exact Bool.false_ne_true)
    · obtain ⟨g', rm, md, heq, hnodes, hheads, hrm, _hmd, _hmissing⟩ :=
        addChange_newHead_spec h1 h2
      rw [ingestStep_eq_of_newHead heq]
      refine ⟨?_, ?_⟩
      · dsimp only
        rw [hnodes, mapHas_append, mapHas_singleton]
        simp
      · intro hmem
        dsimp only at hmem ⊢
        have hnotdep : c.hash ∉ c.deps := ((hheads c.hash).mp hmem).2
        have hnotrm : c.hash ∉ rm := fun hin => hnotdep ((hrm c.hash).mp hin).1
        constructor
        · exact keys_foldl_mapDelete.mpr ⟨keys_mapAddToSet.mpr (Or.inr rfl), hnotrm⟩
        · intro kv hkv hk
          exact mapAddToSet_entry_mem kv (mem_foldl_mapDelete hkv) hk

theorem peerRecorded_pres {t : HeadSyncer} {peer : String} {c c' : PartialChange}
    (h : PeerRecorded t peer c) : PeerRecorded (ingestStep t peer c') peer c := by
  obtain ⟨hnode, hhead⟩ := h
  refine ⟨nodes_mono_ingestStep hnode, ?_⟩
  by_cases h1 : mapHas t.changes.nodes c'.hash = true
  · rw [ingestStep_already h1]
    by_cases hh : c'.hash ∈ t.changes.heads
    · rw [if_pos hh]
      dsimp only
      intro hmem
      obtain ⟨hex, hall⟩ := hhead hmem
      constructor
      · exact keys_mapAddToSet.mpr (Or.inl hex)
      · intro kv hkv hk
        rcases mapAddToSet_entries kv hkv with rfl | ⟨kv0, hkv0, hfst, hsub⟩
        · dsimp only at hk
          simp
        · exact hsub peer (hall kv0 hkv0 (hfst ▸ hk))
    · rw [if_neg hh]
      exact hhead
  · rw [Bool.not_eq_true] at h1
    by_cases h2 : c'.hash ∈ t.changes.missing
    · rw [ingestStep_wasMissing h1 h2]
      exact hhead
    · obtain ⟨g', rm, md, heq, _hnodes, hheads, hrm, _hmd, _hmissing⟩ :=
        addChange_newHead_spec h1 h2
      rw [ingestStep_eq_of_newHead heq]
      dsimp only
      intro hmem
      have hhash : c.hash ≠ c'.hash := by
        intro heq
        rw [heq, h1] at hnode
        cases hnode
      have hold : c.hash ∈ t.changes.heads := by
        rcases ((hheads c.hash).mp hmem).1 with hmem' | heqh
        · exact hmem'
        · exact absurd heqh hhash
      have hnotdep : c.hash ∉ c'.deps := ((hheads c.hash).mp hmem).2
      have hnotrm : c.hash ∉ rm := fun hin => hnotdep ((hrm c.hash).mp hin).1
      obtain ⟨hex, hall⟩ := hhead hold
      constructor
      · exact keys_foldl_mapDelete.mpr ⟨keys_mapAddToSet.mpr (Or.inl hex), hnotrm⟩
      · intro kv hkv hk
        rcases mapAddToSet_entries kv (mem_foldl_mapDelete hkv) with rfl | ⟨kv0, hkv0, hfst, hsub⟩
        · exact absurd hk.symm (by simpa using hhash)
        · exact hsub peer (hall kv0 hkv0 (hfst ▸ hk))

theorem peerRecorded_ingestChanges {t : HeadSyncer} {peer : String} {cs : List PartialChange}
    {c : PartialChange} (h : PeerRecorded t peer c) :
    PeerRecorded (ingestChanges t peer cs) peer c := by
  induction cs generalizing t with
  | nil => exact h
  | cons c' cs ih => exact ih (peerRecorded_pres h)

theorem peerRecorded_after_ingest {s : HeadSyncer} {peer : String} {cs : List PartialChange}
    (hg : GraphInv s.changes) :
    ∀ c ∈ cs, PeerRecorded (ingestChanges s peer cs) peer c := by
  induction cs generalizing s with
  | nil => intro c hc; cases hc
  | cons c0 cs ih =>
      intro c hc
      rcases List.mem_cons.mp hc with rfl | hc
      · have h0 : PeerRecorded (ingestStep s peer c) peer c := peerRecorded_ingestStep_self hg
        have h1 : PeerRecorded (ingestChanges (ingestStep s peer c) peer cs) peer c :=
          peerRecorded_ingestChanges h0
        exact h1
      · exact ih (GraphInv_ingestStep hg) c hc

theorem ingestStep_eq_self {t : HeadSyncer} {peer : String} {c : PartialChange}
    (h : PeerRecorded t peer c) : ingestStep t peer c = t := by
  obtain ⟨hnode, hhead⟩ := h
  rw [ingestStep_already hnode]
  by_cases hh : c.hash ∈ t.changes.heads
  · rw [if_pos hh]
    obtain ⟨hex, hall⟩ := hhead hh
    rw [mapAddToSet_eq_self hex hall]
  · rw [if_neg hh]

theorem ingestChanges_eq_self {t : HeadSyncer} {peer : String} {cs : List PartialChange}
    (h : ∀ c ∈ cs, ingestStep t peer c = t) : ingestChanges t peer cs = t := by
  induction cs with
  | nil => rfl
  | cons c cs ih =>
      have hstep : ingestStep t peer c = t := h c (List.mem_cons_self c cs)
      have : ingestChanges t peer (c :: cs) = ingestChanges (ingestStep t peer c) peer cs := rfl
      rw [this, hstep]
      exact ih (fun c' hc' => h c' (List.mem_cons_of_mem c hc'))

/-- C5: `addChange` of an already-known hash is a strict no-op returning
`AlreadyExists`, and re-ingesting the same (peer, batch) pair immediately
after a first ingestion from any reachable state leaves the whole coordinator
state — `nodes`, `heads`, `missing` and `headPeers` — unchanged. -/
theorem C5_idempotence (g : ChangeGraph) (c : PartialChange) (s : HeadSyncer) (peer : String)
    (cs : List PartialChange) (hg : mapHas g.nodes c.hash = true) (hr : ReachableHS s) :
    addChange g c = (g, .already_exists) ∧
    ingestChanges (ingestChanges s peer cs) peer cs = ingestChanges s peer cs := by
  refine ⟨addChange_already hg, ?_⟩
  refine ingestChanges_eq_self ?_
  intro c' hc'
  exact ingestStep_eq_self
    (peerRecorded_after_ingest (GraphInv_reachable hr) c' hc')

/-- Witness for `C5_idempotence`: a one-change batch re-ingested on top of the
empty coordinator state. -/
theorem C5_idempotence_witness :
    mapHas (graphOfList [⟨"h", []⟩]).nodes "h" = true ∧
    (addChange (graphOfList [⟨"h", []⟩]) ⟨"h", ["x"]⟩ = (graphOfList [⟨"h", []⟩], .already_exists) ∧
      ingestChanges (ingestChanges emptyHS "p" [⟨"h", []⟩]) "p" [⟨"h", []⟩] =
        ingestChanges emptyHS "p" [⟨"h", []⟩]) :=
  ⟨by decide,
    C5_idempotence (graphOfList [⟨"h", []⟩]) ⟨"h", ["x"]⟩ emptyHS "p" [⟨"h", []⟩]
      (by decide) ReachableHS.empty⟩

theorem greedyLoop_nil (phs : List (String × List String)) :
    greedyLoop phs [] = .ok [] := by
  rw [greedyLoop]
  rfl

/-- C10: when `heads` is empty, `calculatePeersToDownloadFrom` returns the
empty peer list without raising the internal-consistency error, whatever
`headPeers` holds. -/
theorem C10_empty_heads_empty_result (s : HeadSyncer) (h : s.changes.heads = []) :
    calculatePeersToDownloadFrom s = .ok [] := by
  rw [calculatePeersToDownloadFrom, h]
  exact greedyLoop_nil _

/-- Witness for `C10_empty_heads_empty_result`: empty graph but a stale
non-empty `headPeers` map. -/
theorem C10_empty_heads_empty_result_witness :
    calculatePeersToDownloadFrom ⟨⟨[], [], []⟩, [("h", ["p"])]⟩ = .ok [] :=
  C10_empty_heads_empty_result ⟨⟨[], [], []⟩, [("h", ["p"])]⟩ rfl

theorem pickGreedy_eq_none {phs : List (String × List String)} {rem : List String}
    (h : ∀ kv ∈ phs, jsIntersection kv.2 rem = []) : pickGreedy phs rem = none := by
  unfold pickGreedy
  induction phs with
  | nil => rfl
  | cons kv phs ih =>
      rw [List.foldl_cons]
      have hkv : pickStep rem none kv = none := by
        unfold pickStep
        rw [h kv (List.mem_cons_self kv phs)]
        rfl
      rw [hkv]
      exact ih (fun kv' h' => h kv' (List.mem_cons_of_mem kv h'))

/-- C8: when the remaining heads are non-empty and no peer of the inverted
`peerHeads` map intersects them, the greedy loop raises the
internal-consistency error instead of returning a result; in particular a
coordinator whose non-empty `heads` are attributed to no peer gets the error
from `calculatePeersToDownloadFrom`. -/
theorem C8_uncovered_heads_error :
    (∀ (phs : List (String × List String)) (rem : List String), rem ≠ [] →
      (∀ kv ∈ phs, jsIntersection kv.2 rem = []) →
      greedyLoop phs rem = .error greedyErrorMsg) ∧
    (∀ s : HeadSyncer, s.changes.heads ≠ [] →
      (∀ kv ∈ buildPeerHeads s.headPeers,
        jsIntersection kv.2 (jsSetOf s.changes.heads) = []) →
      calculatePeersToDownloadFrom s = .error greedyErrorMsg) := by
  have loopPart : ∀ (phs : List (String × List String)) (rem : List String), rem ≠ [] →
      (∀ kv ∈ phs, jsIntersection kv.2 rem = []) →
      greedyLoop phs rem = .error greedyErrorMsg := by
    intro phs rem hne hempty
    rw [greedyLoop]
    rw [pickGreedy_eq_none hempty]
    have : rem.isEmpty = false := by
      cases rem with
      | nil => exact absurd rfl hne
      | cons r rs => rfl
    rw [this]
    rfl
  refine ⟨loopPart, ?_⟩
  intro s hne hempty
  rw [calculatePeersToDownloadFrom]
  refine loopPart _ _ ?_ hempty
  cases hcase : s.changes.heads with
  | nil => exact absurd hcase hne
  | cons r rs =>
      intro hcontra
      have : r ∈ jsSetOf s.changes.heads := mem_jsSetOf.mpr (by rw [hcase]; simp)
      rw [hcase, hcontra] at this
      exact absurd this (List.not_mem_nil r)

/-- Witness for `C8_uncovered_heads_error`: one uncovered head, one peer with
no heads, and a coordinator with a head but an empty `headPeers` map. -/
theorem C8_uncovered_heads_error_witness :
    greedyLoop [("p", [])] ["h"] = .error greedyErrorMsg ∧
    calculatePeersToDownloadFrom ⟨⟨[("h", [])], [], ["h"]⟩, []⟩ = .error greedyErrorMsg :=
  ⟨C8_uncovered_heads_error.1 [("p", [])] ["h"] (by decide) (by decide),
    C8_uncovered_heads_error.2 ⟨⟨[("h", [])], [], ["h"]⟩, []⟩ (by decide) (by decide)⟩

theorem bestSize_pickStep_mono (rem : List String) (best : Option (String × List String))
    (kv : String × List String) : bestSize best ≤ bestSize (pickStep rem best kv) := by
  unfold pickStep
  split
  · rename_i hgt
    exact Nat.le_of_lt hgt
  · exact Nat.le_refl _

theorem interSize_le_pickStep (rem : List String) (best : Option (String × List String))
    (kv : String × List String) :
    (jsIntersection kv.2 rem).length ≤ bestSize (pickStep rem best kv) := by
  unfold pickStep
  split
  · exact Nat.le_refl _
  · rename_i hle
    exact Nat.le_of_not_lt hle

theorem pickFold_none (rem : List String) :
    ∀ (l : List (String × List String)) (best : Option (String × List String)),
      l.foldl (pickStep rem) best = none →
      best = none ∧ ∀ kv ∈ l, jsIntersection kv.2 rem = [] := by
  intro l
  induction l with
  | nil =>
      intro best h
      exact ⟨h, fun kv hkv => absurd hkv (List.not_mem_nil kv)⟩
  | cons kv l ih =>
      intro best h
      rw [List.foldl_cons] at h
      obtain ⟨hstep, hl⟩ := ih (pickStep rem best kv) h
      unfold pickStep at hstep
      split at hstep
      · cases hstep
      · rename_i hle
        refine ⟨hstep, ?_⟩
        intro kv' hkv'
        rcases List.mem_cons.mp hkv' with rfl | hkv'
        · rw [hstep] at hle
          have hbz : bestSize (none : Option (String × List String)) = 0 := rfl
          rw [hbz] at hle
          have : (jsIntersection kv'.2 rem).length = 0 := by omega
          exact List.eq_nil_of_length_eq_zero this
        · exact hl kv' hkv'

theorem pickFold_some_spec (rem : List String) :
    ∀ (l : List (String × List String)) (best : Option (String × List String))
      (p : String) (inter : List String),
      l.foldl (pickStep rem) best = some (p, inter) →
      (some (p, inter) = best ∧
        ∀ kv ∈ l, (jsIntersection kv.2 rem).length ≤ inter.length) ∨
      (∃ pre hs post, l = pre ++ (p, hs) :: post ∧ inter = jsIntersection hs rem ∧
        bestSize best < inter.length ∧
        (∀ kv ∈ l, (jsIntersection kv.2 rem).length ≤ inter.length) ∧
        (∀ kv ∈ pre, (jsIntersection kv.2 rem).length < inter.length)) := by
  intro l
  induction l with
  | nil =>
      intro best p inter h
      exact Or.inl ⟨h.symm, fun kv hkv => absurd hkv (List.not_mem_nil kv)⟩
  | cons kv l ih =>
      intro best p inter h
      rw [List.foldl_cons] at h
      rcases ih (pickStep rem best kv) p inter h with ⟨heq, hle⟩ | hspec
      · by_cases hgt : (jsIntersection kv.2 rem).length > bestSize best
        · have hstep : pickStep rem best kv = some (kv.1, jsIntersection kv.2 rem) := by
            unfold pickStep
            rw [if_pos hgt]
          rw [hstep] at heq
          rw [Option.some.injEq, Prod.mk.injEq] at heq
          obtain ⟨rfl, rfl⟩ := heq
          refine Or.inr ⟨[], kv.2, l, by simp, rfl, hgt, ?_, ?_⟩
          · intro kv' hkv'
            rcases List.mem_cons.mp hkv' with rfl | hkv'
            · exact Nat.le_refl _
            · exact hle kv' hkv'
          · intro kv' hkv'
            exact absurd hkv' (List.not_mem_nil kv')
        · have hstep : pickStep rem best kv = best := by
            unfold pickStep
            rw [if_neg hgt]
          rw [hstep] at heq
          refine Or.inl ⟨heq, ?_⟩
          intro kv' hkv'
          rcases List.mem_cons.mp hkv' with rfl | hkv'
          · have : bestSize best = inter.length := by
              rw [← heq]
              rfl
            omega
          · exact hle kv' hkv'
      · obtain ⟨pre, hs, post, hdecomp, hinter, hbest, hall, hpre⟩ := hspec
        refine Or.inr ⟨kv :: pre, hs, post, by rw [List.cons_append, hdecomp], hinter, ?_, ?_, ?_⟩
        · exact Nat.lt_of_le_of_lt (bestSize_pickStep_mono rem best kv) hbest
        · intro kv' hkv'
          rcases List.mem_cons.mp hkv' with rfl | hkv'
          · exact Nat.le_of_lt
              (Nat.lt_of_le_of_lt (interSize_le_pickStep rem best kv') hbest)
          · exact hall kv' (hdecomp ▸ hkv')
        · intro kv' hkv'
          rcases List.mem_cons.mp hkv' with rfl | hkv'
          · exact Nat.lt_of_le_of_lt (interSize_le_pickStep rem best kv') hbest
          · exact hpre kv' hkv'

theorem pickGreedy_some_spec {phs : List (String × List String)} {rem : List String}
    {p : String} {inter : List String} (h : pickGreedy phs rem = some (p, inter)) :
    ∃ pre hs post, phs = pre ++ (p, hs) :: post ∧ inter = jsIntersection hs rem ∧
      0 < inter.length ∧
      (∀ kv ∈ phs, (jsIntersection kv.2 rem).length ≤ inter.length) ∧
      (∀ kv ∈ pre, (jsIntersection kv.2 rem).length < inter.length) := by
  rcases pickFold_some_spec rem phs none p inter h with ⟨heq, _⟩ | hspec
  · cases heq
  · obtain ⟨pre, hs, post, hdecomp, hinter, hbest, hall, hpre⟩ := hspec
    exact ⟨pre, hs, post, hdecomp, hinter, hbest, hall, hpre⟩

theorem memVal_mapAddToSet {m : List (String × List String)} {k x p h : String} :
    (∃ hs, (p, hs) ∈ mapAddToSet m k x ∧ h ∈ hs) ↔
      ((∃ hs, (p, hs) ∈ m ∧ h ∈ hs) ∨ (p = k ∧ h = x)) := by
  unfold mapAddToSet
  by_cases hhas : mapHas m k = true
  · rw [if_pos hhas]
    constructor
    · rintro ⟨hs, hmem, hh⟩
      obtain ⟨⟨k0, v0⟩, hkv0, hfk⟩ := List.mem_map.mp hmem
      by_cases hbk : (k0 == k) = true
      · rw [show ((if ((k0, v0).1 == k) = true then ((k0, v0).1, setAdd (k0, v0).2 x)
            else (k0, v0)) = (k0, setAdd v0 x)) from by rw [if_pos hbk]] at hfk
        rw [Prod.mk.injEq] at hfk
        obtain ⟨hp, hhs⟩ := hfk
        rw [beq_iff_eq] at hbk
        rcases mem_setAdd.mp (hhs ▸ hh) with hh0 | hhx
        · refine Or.inl ⟨v0, ?_, hh0⟩
          rw [← hp]
          exact hkv0
        · exact Or.inr ⟨by rw [← hp, hbk], hhx⟩
      · rw [show ((if ((k0, v0).1 == k) = true then ((k0, v0).1, setAdd (k0, v0).2 x)
            else (k0, v0)) = (k0, v0)) from by rw [if_neg (by simpa using hbk)]] at hfk
        refine Or.inl ⟨hs, ?_, hh⟩
        rw [← hfk]
        exact hkv0
    · rintro (⟨hs, hmem, hh⟩ | ⟨hpk, hhx⟩)
      · by_cases hbk : (p == k) = true
        · refine ⟨setAdd hs x, ?_, mem_setAdd.mpr (Or.inl hh)⟩
          have heq : (p, setAdd hs x) = if ((p, hs).1 == k) = true
              then ((p, hs).1, setAdd (p, hs).2 x) else (p, hs) := by
            rw [if_pos hbk]
          rw [heq]
          exact List.mem_map_of_mem _ hmem
        · refine ⟨hs, ?_, hh⟩
          have heq : (p, hs) = if ((p, hs).1 == k) = true
              then ((p, hs).1, setAdd (p, hs).2 x) else (p, hs) := by
            rw [if_neg (by simpa using hbk)]
          rw [heq]
          exact List.mem_map_of_mem _ hmem
      · obtain ⟨⟨k0, v0⟩, hkv0, hk0⟩ := mapHas_iff.mp hhas
        dsimp only at hk0
        refine ⟨setAdd v0 x, ?_, ?_⟩
        · have heq : (p, setAdd v0 x) = if ((k0, v0).1 == k) = true
              then ((k0, v0).1, setAdd (k0, v0).2 x) else (k0, v0) := by
            rw [if_pos (by rw [beq_iff_eq]; exact hk0)]
            rw [Prod.mk.injEq]
            exact ⟨by rw [hk0, hpk], rfl⟩
          rw [heq]
          exact List.mem_map_of_mem _ hkv0
        · rw [hhx]
          exact mem_setAdd.mpr (Or.inr rfl)
  · rw [if_neg hhas]
    constructor
    · rintro ⟨hs, hmem, hh⟩
      rcases List.mem_append.mp hmem with hmem | hmem
      · exact Or.inl ⟨hs, hmem, hh⟩
      · simp only [List.mem_singleton, Prod.mk.injEq] at hmem
        obtain ⟨hpk, hhs⟩ := hmem
        rw [hhs] at hh
        exact Or.inr ⟨hpk, List.mem_singleton.mp hh⟩
    · rintro (⟨hs, hmem, hh⟩ | ⟨hpk, hhx⟩)
      · exact ⟨hs, List.mem_append_left _ hmem, hh⟩
      · refine ⟨[x], ?_, by rw [hhx]; simp⟩
        rw [hpk]
        exact List.mem_append_right _ (by simp)

theorem memVal_foldl_addPeers {peers : List String} {head : String}
    {phs : List (String × List String)} {p h : String} :
    (∃ hs, (p, hs) ∈ peers.foldl (fun phs peer => mapAddToSet phs peer head) phs ∧ h ∈ hs) ↔
      ((∃ hs, (p, hs) ∈ phs ∧ h ∈ hs) ∨ (p ∈ peers ∧ h = head)) := by
  induction peers generalizing phs with
  | nil => simp
  | cons peer peers ih =>
      rw [List.foldl_cons, ih, memVal_mapAddToSet]
      constructor
      · rintro ((hl | ⟨hpe, hhh⟩) | ⟨hpmem, hhh⟩)
        · exact Or.inl hl
        · refine Or.inr ⟨?_, hhh⟩
          rw [hpe]
          exact List.mem_cons_self peer peers
        · exact Or.inr ⟨List.mem_cons_of_mem _ hpmem, hhh⟩
      · rintro (hl | ⟨hpmem, hhh⟩)
        · exact Or.inl (Or.inl hl)
        · rcases List.mem_cons.mp hpmem with hpe | hpm
          · exact Or.inl (Or.inr ⟨hpe, hhh⟩)
          · exact Or.inr ⟨hpm, hhh⟩

theorem memVal_buildPeerHeads {hp : List (String × List String)} {p h : String} :
    (∃ hs, (p, hs) ∈ buildPeerHeads hp ∧ h ∈ hs) ↔
      ∃ kv ∈ hp, kv.1 = h ∧ p ∈ kv.2 := by
  unfold buildPeerHeads
  have gen : ∀ (l : List (String × List String)) (phs : List (String × List String)),
      (∃ hs, (p, hs) ∈ l.foldl
          (fun phs kv => kv.2.foldl (fun phs peer => mapAddToSet phs peer kv.1) phs) phs ∧
        h ∈ hs) ↔
      ((∃ hs, (p, hs) ∈ phs ∧ h ∈ hs) ∨ ∃ kv ∈ l, kv.1 = h ∧ p ∈ kv.2) := by
    intro l
    induction l with
    | nil => simp
    | cons kv l ih =>
        intro phs
        rw [List.foldl_cons, ih, memVal_foldl_addPeers]
        simp only [List.mem_cons]
        constructor
        · rintro ((hl | ⟨hpmem, rfl⟩) | ⟨kv', hkv', hk', hp'⟩)
          · exact Or.inl hl
          · exact Or.inr ⟨kv, Or.inl rfl, rfl, hpmem⟩
          · exact Or.inr ⟨kv', Or.inr hkv', hk', hp'⟩
        · rintro (hl | ⟨kv', (rfl | hkv'), hk', hp'⟩)
          · exact Or.inl (Or.inl hl)
          · exact Or.inl (Or.inr ⟨hp', hk'.symm ▸ rfl⟩)
          · exact Or.inr ⟨kv', hkv', hk', hp'⟩
  rw [gen hp []]
  simp

theorem keysFst_mapAddToSet {m : List (String × List String)} {k x : String} :
    (mapAddToSet m k x).map Prod.fst =
      if mapHas m k = true then m.map Prod.fst else m.map Prod.fst ++ [k] := by
  unfold mapAddToSet
  by_cases hhas : mapHas m k = true
  · rw [if_pos hhas, if_pos hhas, List.map_map]
    refine List.map_congr_left ?_
    intro kv _
    simp only [Function.comp_apply]
    split <;> rfl
  · rw [if_neg hhas, if_neg hhas, List.map_append]
    rfl

theorem keysNodup_mapAddToSet {m : List (String × List String)} {k x : String}
    (h : (m.map Prod.fst).Nodup) : ((mapAddToSet m k x).map Prod.fst).Nodup := by
  rw [keysFst_mapAddToSet]
  by_cases hhas : mapHas m k = true
  · rwa [if_pos hhas]
  · rw [if_neg hhas]
    rw [List.nodup_append]
    refine ⟨h, List.nodup_singleton k, ?_⟩
    intro a ha hb
    rcases List.mem_singleton.mp hb with rfl
    obtain ⟨kv, hkv, hfk⟩ := List.mem_map.mp ha
    exact absurd (mapHas_iff.mpr ⟨kv, hkv, hfk⟩) (by simpa using hhas)

theorem keysNodup_buildPeerHeads (hp : List (String × List String)) :
    ((buildPeerHeads hp).map Prod.fst).Nodup := by
  unfold buildPeerHeads
  have inner : ∀ (peers : List String) (head : String) (phs : List (String × List String)),
      (phs.map Prod.fst).Nodup →
      ((peers.foldl (fun phs peer => mapAddToSet phs peer head) phs).map Prod.fst).Nodup := by
    intro peers head
    induction peers with
    | nil => exact fun phs h => h
    | cons peer peers ih =>
        intro phs h
        exact ih _ (keysNodup_mapAddToSet h)
  have outer : ∀ (l : List (String × List String)) (phs : List (String × List String)),
      (phs.map Prod.fst).Nodup →
      ((l.foldl (fun phs kv => kv.2.foldl (fun phs peer => mapAddToSet phs peer kv.1) phs)
          phs).map Prod.fst).Nodup := by
    intro l
    induction l with
    | nil => exact fun phs h => h
    | cons kv l ih =>
        intro phs h
        exact ih _ (inner kv.2 kv.1 phs h)
  exact outer hp [] (by simp)

theorem key_unique {l : List (String × List String)} (hnd : (l.map Prod.fst).Nodup)
    {p : String} {a b : List String} (ha : (p, a) ∈ l) (hb : (p, b) ∈ l) : a = b := by
  induction l with
  | nil => exact absurd ha (List.not_mem_nil _)
  | cons kv l ih =>
      rw [List.map_cons, List.nodup_cons] at hnd
      rcases List.mem_cons.mp ha with hha | hha <;> rcases List.mem_cons.mp hb with hhb | hhb
      · rw [← hha] at hhb
        injection hhb with _ h2
        exact h2.symm
      · have hk : kv.1 = p := by rw [← hha]
        have hpmem : p ∈ List.map Prod.fst l := by
          simpa using List.mem_map_of_mem Prod.fst hhb
        rw [hk] at hnd
        exact absurd hpmem hnd.1
      · have hk : kv.1 = p := by rw [← hhb]
        have hpmem : p ∈ List.map Prod.fst l := by
          simpa using List.mem_map_of_mem Prod.fst hha
        rw [hk] at hnd
        exact absurd hpmem hnd.1
      · exact ih hnd.2 hha hhb

theorem mem_lookupSet_iff {phs : List (String × List String)}
    (hnd : (phs.map Prod.fst).Nodup) {p h : String} :
    h ∈ lookupSet phs p ↔ ∃ hs, (p, hs) ∈ phs ∧ h ∈ hs := by
  unfold lookupSet
  cases hfind : phs.find? (fun kv => kv.1 == p) with
  | none =>
      dsimp only [Option.map, Option.getD]
      constructor
      · intro hh
        exact absurd hh (List.not_mem_nil h)
      · rintro ⟨hs, hmem, hh⟩
        have := List.find?_eq_none.mp hfind (p, hs) hmem
        simp at this
  | some kv =>
      dsimp only [Option.map, Option.getD]
      have hkvmem : kv ∈ phs := List.mem_of_find?_eq_some hfind
      have hkvp : kv.1 = p := by
        have := List.find?_some hfind
        simpa using this
      constructor
      · intro hh
        refine ⟨kv.2, ?_, hh⟩
        rw [← hkvp]
        exact hkvmem
      · rintro ⟨hs, hmem, hh⟩
        have : hs = kv.2 := by
          refine key_unique hnd hmem ?_
          rw [← hkvp]
          exact hkvmem
        rw [← this]
        exact hh

theorem mem_attributedUnion {phs : List (String × List String)} {ps : List String}
    {h : String} :
    h ∈ attributedUnion phs ps ↔ ∃ p ∈ ps, h ∈ lookupSet phs p := by
  unfold attributedUnion
  have gen : ∀ (ps : List String) (acc : List String),
      h ∈ ps.foldl (fun acc p => acc ++ lookupSet phs p) acc ↔
        h ∈ acc ∨ ∃ p ∈ ps, h ∈ lookupSet phs p := by
    intro ps
    induction ps with
    | nil => simp
    | cons p ps ih =>
        intro acc
        rw [List.foldl_cons, ih]
        simp only [List.mem_append, List.mem_cons]
        constructor
        · rintro ((hacc | hp) | ⟨q, hq, hh⟩)
          · exact Or.inl hacc
          · exact Or.inr ⟨p, Or.inl rfl, hp⟩
          · exact Or.inr ⟨q, Or.inr hq, hh⟩
        · rintro (hacc | ⟨q, (rfl | hq), hh⟩)
          · exact Or.inl (Or.inl hacc)
          · exact Or.inl (Or.inr hh)
          · exact Or.inr ⟨q, hq, hh⟩
  rw [gen ps []]
  simp

theorem mem_jsIntersection {a b : List String} {x : String} :
    x ∈ jsIntersection a b ↔ x ∈ a ∧ x ∈ b := by
  simp [jsIntersection]

theorem mem_setDiff {a b : List String} {x : String} :
    x ∈ setDiff a b ↔ x ∈ a ∧ x ∉ b := by
  simp [setDiff]

theorem setDiff_length_lt {rem inter : List String} {x : String} (hxr : x ∈ rem)
    (hxi : x ∈ inter) : (setDiff rem inter).length < rem.length := by
  unfold setDiff
  induction rem with
  | nil => cases hxr
  | cons a l ih =>
      rw [List.filter_cons]
      rcases List.mem_cons.mp hxr with hxa | hl
      · have hpred : (decide (a ∉ inter)) = false := by
          rw [hxa] at hxi
          simp [hxi]
        rw [hpred]
        simp only [Bool.false_eq_true, if_false, List.length_cons]
        exact Nat.lt_succ_of_le (List.length_filter_le _ _)
      · cases hpred : (decide (a ∉ inter)) with
        | false =>
            simp only [Bool.false_eq_true, if_false, List.length_cons]
            exact Nat.lt_succ_of_lt (ih hl)
        | true =>
            simp only [if_true, List.length_cons]
            exact Nat.succ_lt_succ (ih hl)

theorem greedyLoop_cover (phs : List (String × List String)) :
    ∀ (n : Nat) (rem : List String), rem.length ≤ n →
      (∀ h ∈ rem, ∃ kv ∈ phs, h ∈ kv.2) →
      ∃ ps, greedyLoop phs rem = .ok ps ∧ GreedyCover phs rem ps ∧
        (∀ h ∈ rem, ∃ p ∈ ps, ∃ hs, (p, hs) ∈ phs ∧ h ∈ hs) ∧
        (∀ p ∈ ps, ∃ hs, (p, hs) ∈ phs) := by
  intro n
  induction n with
  | zero =>
      intro rem hlen hcov
      have hremnil : rem = [] := List.eq_nil_of_length_eq_zero (Nat.le_zero.mp hlen)
      subst hremnil
      exact ⟨[], greedyLoop_nil phs, GreedyCover.nil, by simp, by simp⟩
  | succ n ih =>
      intro rem hlen hcov
      by_cases hre : rem = []
      · subst hre
        exact ⟨[], greedyLoop_nil phs, GreedyCover.nil, by simp, by simp⟩
      · have hpick : ∃ best, pickGreedy phs rem = some best := by
          cases hp : pickGreedy phs rem with
          | some best => exact ⟨best, rfl⟩
          | none =>
              obtain ⟨_, hall⟩ := pickFold_none rem phs none hp
              obtain ⟨h0, hh0⟩ := List.exists_mem_of_ne_nil rem hre
              obtain ⟨kv, hkv, hh0kv⟩ := hcov h0 hh0
              have hmem : h0 ∈ jsIntersection kv.2 rem := mem_jsIntersection.mpr ⟨hh0kv, hh0⟩
              rw [hall kv hkv] at hmem
              exact absurd hmem (List.not_mem_nil h0)
        obtain ⟨⟨p, inter⟩, hp⟩ := hpick
        obtain ⟨pre, hs, post, hdecomp, hinter, hpos, hall, hpre⟩ := pickGreedy_some_spec hp
        have hsub : ∀ x ∈ inter, x ∈ rem := by
          intro x hx
          rw [hinter] at hx
          exact (mem_jsIntersection.mp hx).2
        have hlt : (setDiff rem inter).length < rem.length := by
          obtain ⟨x, hxi⟩ := List.exists_mem_of_ne_nil inter
            (by intro hemp; rw [hemp] at hpos; simp at hpos)
          exact setDiff_length_lt (hsub x hxi) hxi
        have hcov' : ∀ h ∈ setDiff rem inter, ∃ kv ∈ phs, h ∈ kv.2 := by
          intro h hh
          exact hcov h (mem_setDiff.mp hh).1
        obtain ⟨ps', hok', hgc', hcv', hpm'⟩ :=
          ih (setDiff rem inter) (by omega) hcov'
        refine ⟨p :: ps', ?_, ?_, ?_, ?_⟩
        · rw [greedyLoop]
          have hne : rem.isEmpty = false := by
            cases rem with
            | nil => exact absurd rfl hre
            | cons a l => rfl
          simp only [hne, Bool.false_eq_true, if_false]
          split
          · rename_i heq
            rw [hp] at heq
            cases heq
          · rename_i best heq
            rw [hp] at heq
            injection heq with heq
            subst heq
            dsimp only
            rw [hok']
            rfl
        · refine GreedyCover.cons rem p hs pre post ps' hdecomp ?_ ?_ ?_ ?_
          · rw [← hinter]
            exact hpos
          · intro kv hkv
            rw [← hinter]
            exact hall kv hkv
          · intro kv hkv
            rw [← hinter]
            exact hpre kv hkv
          · rw [← hinter]
            exact hgc'
        · intro h hh
          by_cases hhi : h ∈ inter
          · refine ⟨p, List.mem_cons_self p ps', hs, ?_, ?_⟩
            · rw [hdecomp]
              exact List.mem_append_right _ (List.mem_cons_self _ post)
            · rw [hinter] at hhi
              exact (mem_jsIntersection.mp hhi).1
          · have hmem : h ∈ setDiff rem inter := mem_setDiff.mpr ⟨hh, hhi⟩
            obtain ⟨q, hq, hs', hhs', hmem'⟩ := hcv' h hmem
            exact ⟨q, List.mem_cons_of_mem _ hq, hs', hhs', hmem'⟩
        · intro q hq
          rcases List.mem_cons.mp hq with hqp | hq'
          · refine ⟨hs, ?_⟩
            rw [hqp, hdecomp]
            exact List.mem_append_right _ (List.mem_cons_self _ post)
          · exact hpm' q hq'

/-- C4, counterexample: the claim quantifies over every state in which each
head is attributed to at least one peer, but such a state may also hold a
stale `headPeers` key that is not a head.  Then the union of the head sets
attributed to the returned peers is a proper superset of `heads`: here heads
is just h, yet peer p is also credited with the stale key k, so the union
contains k ∉ heads. -/
theorem C4_cover_counterexample :
    (∀ h ∈ (⟨⟨[("h", [])], [], ["h"]⟩,
        [("h", ["p"]), ("k", ["p"])]⟩ : HeadSyncer).changes.heads,
      ∃ kv ∈ (⟨⟨[("h", [])], [], ["h"]⟩,
        [("h", ["p"]), ("k", ["p"])]⟩ : HeadSyncer).headPeers, kv.1 = h ∧ kv.2 ≠ []) ∧
    calculatePeersToDownloadFrom
      ⟨⟨[("h", [])], [], ["h"]⟩, [("h", ["p"]), ("k", ["p"])]⟩ = .ok ["p"] ∧
    "k" ∈ attributedUnion (buildPeerHeads [("h", ["p"]), ("k", ["p"])]) ["p"] ∧
    "k" ∉ (⟨⟨[("h", [])], [], ["h"]⟩,
        [("h", ["p"]), ("k", ["p"])]⟩ : HeadSyncer).changes.heads := by
  refine ⟨by decide, ?_, by decide, by decide⟩
  rw [calculatePeersToDownloadFrom]
  rw [greedyLoop]
  simp [buildPeerHeads, mapAddToSet, mapHas, jsSetOf, setAdd, jsIntersection, setDiff,
    pickGreedy, pickStep, bestSize]
  rw [greedyLoop]
  simp [setDiff, Except.map]

/-- C4, amended: for every state in which each head is attributed to at least
one peer in `headPeers` and — invariant I4, maintained by `ingestChanges` —
every key of `headPeers` is a head, `calculatePeersToDownloadFrom` returns
(without error) a sequence of peers whose attributed head sets cover `heads`
exactly, and the sequence is the greedy selection: each returned peer is the
first one whose attributed heads have the strictly largest intersection with
the still-uncovered heads at the moment it is selected. -/
theorem C4_greedy_cover_amended (s : HeadSyncer)
    (hcover : ∀ h ∈ s.changes.heads, ∃ kv ∈ s.headPeers, kv.1 = h ∧ kv.2 ≠ [])
    (hsub : ∀ kv ∈ s.headPeers, kv.1 ∈ s.changes.heads) :
    ∃ ps, calculatePeersToDownloadFrom s = .ok ps ∧
      GreedyCover (buildPeerHeads s.headPeers) (jsSetOf s.changes.heads) ps ∧
      (∀ h, h ∈ attributedUnion (buildPeerHeads s.headPeers) ps ↔ h ∈ s.changes.heads) := by
  have hcov0 : ∀ h ∈ jsSetOf s.changes.heads,
      ∃ kv ∈ buildPeerHeads s.headPeers, h ∈ kv.2 := by
    intro h hh
    obtain ⟨kv, hkv, hk1, hkne⟩ := hcover h (mem_jsSetOf.mp hh)
    obtain ⟨peer, hpeer⟩ := List.exists_mem_of_ne_nil kv.2 hkne
    obtain ⟨hs, hmem, hhmem⟩ := memVal_buildPeerHeads.mpr ⟨kv, hkv, hk1, hpeer⟩
    exact ⟨(peer, hs), hmem, hhmem⟩
  obtain ⟨ps, hok, hgc, hcv, _hpm⟩ :=
    greedyLoop_cover (buildPeerHeads s.headPeers) (jsSetOf s.changes.heads).length
      (jsSetOf s.changes.heads) (Nat.le_refl _) hcov0
  refine ⟨ps, ?_, hgc, ?_⟩
  · rw [calculatePeersToDownloadFrom]
    exact hok
  · intro h
    rw [mem_attributedUnion]
    constructor
    · rintro ⟨p, _hp, hh⟩
      rw [mem_lookupSet_iff (keysNodup_buildPeerHeads _)] at hh
      obtain ⟨hs, hmem, hhm⟩ := hh
      obtain ⟨kv, hkv, hk1, _hpk⟩ := memVal_buildPeerHeads.mp ⟨hs, hmem, hhm⟩
      rw [← hk1]
      exact hsub kv hkv
    · intro hh
      obtain ⟨p, hps, hs, hmem, hhm⟩ := hcv h (mem_jsSetOf.mpr hh)
      refine ⟨p, hps, ?_⟩
      rw [mem_lookupSet_iff (keysNodup_buildPeerHeads _)]
      exact ⟨hs, hmem, hhm⟩

/-- Witness for `C4_greedy_cover_amended`: a single head attributed to a
single peer. -/
theorem C4_greedy_cover_amended_witness :
    (∀ h ∈ (["h"] : List String),
      ∃ kv ∈ ([("h", ["p"])] : List (String × List String)), kv.1 = h ∧ kv.2 ≠ []) ∧
    (∃ ps, calculatePeersToDownloadFrom ⟨⟨[("h", [])], [], ["h"]⟩, [("h", ["p"])]⟩ = .ok ps ∧
      GreedyCover (buildPeerHeads [("h", ["p"])]) (jsSetOf ["h"]) ps ∧
      (∀ h2, h2 ∈ attributedUnion (buildPeerHeads [("h", ["p"])]) ps ↔
        h2 ∈ (["h"] : List String))) :=
  ⟨by decide,
    C4_greedy_cover_amended ⟨⟨[("h", [])], [], ["h"]⟩, [("h", ["p"])]⟩ (by decide) (by decide)⟩

/-- Witness for `C7_new_head_outcome`: ingesting B (deps [A, X]) into the
one-node graph holding the head A. -/
theorem C7_new_head_outcome_witness :
    mapHas (graphOfList [⟨"A", []⟩]).nodes "B" = false ∧
    "B" ∉ (graphOfList [⟨"A", []⟩]).missing ∧
    ∃ g' rm md, addChange (graphOfList [⟨"A", []⟩]) ⟨"B", ["A", "X"]⟩ = (g', .new_head rm md) ∧
      g'.nodes = (graphOfList [⟨"A", []⟩]).nodes ++ [("B", ["A", "X"])] ∧
      ("B" ∉ (["A", "X"] : List String) → "B" ∈ g'.heads) ∧
      (∀ d, d ∈ rm ↔ d ∈ (["A", "X"] : List String) ∧
        (d ∈ (graphOfList [⟨"A", []⟩]).heads ∨ d = "B")) ∧
      (∀ d, d ∈ rm → d ∉ g'.heads) ∧
      (∀ d, d ∈ md ↔ d ∈ (["A", "X"] : List String) ∧ mapHas g'.nodes d = false) ∧
      (∀ d, d ∈ md → d ∈ g'.missing) :=
  ⟨by decide, by decide,
    C7_new_head_outcome (graphOfList [⟨"A", []⟩]) ⟨"B", ["A", "X"]⟩ (by decide) (by decide)⟩

end RoomySpaces
